import Mathlib

/-!
Formalisation of the path-value abstraction specified for the
`pathlib_tutorial.py` repository.  The repository's only source file is a
linear script that calls into the host platform's path library; the path
operations themselves (construction, decomposition, joining, existence
checks, resolution, traversal) are not part of the repository's sources.
Following the specification, every operation below is therefore modelled
from the spec's own description of the PathValue abstraction (POSIX-style
separator, no drive markers).  All definitions are executable.
-/

/-- Modelled from the spec: an immutable value type representing a
filesystem path — an ordered sequence of path segments plus a flag for
whether the path is absolute.  The suffix and stem of the final segment
are derived, not stored. -/
structure PathValue where
  segments : List String
  isAbsolute : Bool
deriving DecidableEq

namespace PathValue

/-- Modelled from the spec: prepend a character to the first group of a
split (used by `splitOnSep`; the group list is never empty). -/
def consHead (c : Char) : List (List Char) → List (List Char)
  | [] => [[c]]
  | g :: gs => (c :: g) :: gs

/-- Modelled from the spec: character-level splitting of a raw path string
on the platform separator.  Splitting a list of characters on the
separator character, keeping empty groups (a group per logical boundary);
`parse` filters the empty groups out, which is how redundant separators
collapse to a single logical boundary between segments. -/
def splitOnSep : List Char → List (List Char)
  | [] => [[]]
  | c :: rest => if c = '/' then [] :: splitOnSep rest else consHead c (splitOnSep rest)

/-- Modelled from the spec: `parse(raw)` accepts any string, splits on the
platform path separator (redundant separators collapse), and marks the
value absolute when the raw string begins with a root indicator (a leading
separator here; no drive markers in the POSIX model).  No error is raised
for malformed input — any string is a valid path. -/
def parse (raw : String) : PathValue :=
  { segments := ((splitOnSep raw.toList).filter (· ≠ [])).map (fun g => String.mk g)
    isAbsolute := match raw.toList with
      | '/' :: _ => true
      | _ => false }

/-- Modelled from the spec: `name()` is the last segment, or the empty
string when the path has zero segments (e.g. root). -/
def name (p : PathValue) : String := (p.segments.getLast?).getD ""

/-- Modelled from the spec: the portion of a character list starting at its
last `.` character, when one exists.  Searching the tail first makes the
rightmost (last) dot win. -/
def sufChars : List Char → Option (List Char)
  | [] => none
  | c :: cs =>
    match sufChars cs with
    | some s => some s
    | none => if c = '.' then some (c :: cs) else none

/-- Modelled from the spec: the suffix of a name, as characters — the part
of the name starting at the last `.` when a `.` exists after the first
character of the name (hence never the entire name); otherwise empty. -/
def suffixCore (n : List Char) : List Char :=
  match n with
  | [] => []
  | _ :: rest => (sufChars rest).getD []

/-- Modelled from the spec: `suffix()` — the substring of `name` starting
at the last `.` when a `.` exists after the first character of `name` and
is not the entire name; otherwise empty. -/
def suffix (p : PathValue) : String := String.mk (suffixCore (name p).toList)

/-- Modelled from the spec: `stem()` — `name` with `suffix` removed from
its end. -/
def stem (p : PathValue) : String :=
  String.mk ((name p).toList.take ((name p).toList.length - (suffixCore (name p).toList).length))

/-- Modelled from the spec: `parent()` — the path formed by dropping the
last segment; the parent of a path with zero or one segment is itself
(terminal fixed point). -/
def parent (p : PathValue) : PathValue :=
  if p.segments.length ≤ 1 then p else ⟨p.segments.dropLast, p.isAbsolute⟩

/-- Modelled from the spec: joining PathValue `A` with a second path-like
value `B` — if `B` is absolute the result equals `B`; otherwise the
result's segments are `A`'s segments followed by `B`'s segments, with the
same absoluteness as `A`. -/
def join (a b : PathValue) : PathValue :=
  if b.isAbsolute then b else ⟨a.segments ++ b.segments, a.isAbsolute⟩

/-- Modelled from the spec: the string form of `join` — a string argument
is accepted interchangeably with a PathValue wherever a path-like value is
expected, by parsing it first. -/
def joinS (a : PathValue) (s : String) : PathValue := join a (parse s)

/-- Modelled from the spec: the `/` operator form of path joining shown in
the script; its contract is the join invariant (if the right operand is
absolute the result equals it, otherwise append segments and keep the left
operand's absoluteness). -/
def truediv (a b : PathValue) : PathValue :=
  if b.isAbsolute then b else ⟨a.segments ++ b.segments, a.isAbsolute⟩

/-- Modelled from the spec: the `joinpath` method form of path joining
shown in the script; its contract is the join invariant. -/
def joinpath (a b : PathValue) : PathValue :=
  if b.isAbsolute then b else ⟨a.segments ++ b.segments, a.isAbsolute⟩

/-- Modelled from the spec: `/` operator applied to a string right operand
(parsed first). -/
def truedivS (a : PathValue) (s : String) : PathValue := truediv a (parse s)

/-- Modelled from the spec: `joinpath` applied to a string right operand
(parsed first). -/
def joinpathS (a : PathValue) (s : String) : PathValue := joinpath a (parse s)

/-- Modelled from the spec: the string form of a PathValue — segments
interleaved with the separator, with a leading separator when absolute. -/
def toString (p : PathValue) : String :=
  (if p.isAbsolute then ("/") else ("")) ++ String.intercalate ("/") p.segments

/-- Modelled from the spec: `absolute()` — if the path is already
absolute, return it unchanged; otherwise prepend the current working
directory's segments (the working directory is passed explicitly here,
standing for `currentWorkingDirectory()`, and is anchored at the root, so
the result is absolute).  A pure string-level operation: no filesystem
consultation, no collapsing of dot segments. -/
def absolute (cwd p : PathValue) : PathValue :=
  if p.isAbsolute then p else ⟨cwd.segments ++ p.segments, true⟩

/-- Modelled from the spec: textual collapsing of `.` and `..` segments,
processed left to right with an accumulator holding the segments kept so
far in reverse order (`..` at the root stays at the root). -/
def collapseAux : List String → List String → List String
  | acc, [] => acc.reverse
  | acc, s :: rest =>
    if s = "." then collapseAux acc rest
    else if s = ".." then collapseAux acc.tail rest
    else collapseAux (s :: acc) rest

/-- Modelled from the spec: collapse every `.` and `..` segment of a
segment list. -/
def collapse (l : List String) : List String := collapseAux [] l

/-- Modelled from the spec: `resolve()` — the absolute form of the path
(against the explicitly passed current working directory) with `.` and
`..` segments collapsed.  Symlink following is outside this model (the
spec's claims about `resolve` concern its segment-level behaviour, in
particular that a leading `~` segment receives no special treatment — it
is an ordinary literal segment here, exactly as specified). -/
def resolve (cwd p : PathValue) : PathValue :=
  ⟨collapse (absolute cwd p).segments, true⟩

/-- Modelled from the spec: `expandUser()` — if the first segment is
exactly `~`, replace it with the invoking user's home-directory segments
(the home directory is passed explicitly, standing for
`homeDirectory()`); otherwise return the path unchanged.  The
`~username` form, which needs a user database, is not exercised by any
claim and is omitted. -/
def expandUser (home p : PathValue) : PathValue :=
  match p.segments with
  | [] => p
  | s :: rest => if s = "~" then ⟨home.segments ++ rest, home.isAbsolute⟩ else p

/-- Modelled from the spec: the outcome of a single filesystem metadata
lookup — an existing entry, a missing one, or permission denial. -/
inductive LookupResult where
  | found : LookupResult
  | missing : LookupResult
  | denied : LookupResult
deriving DecidableEq

/-- Modelled from the spec: whether any segment of the path contains an
embedded null byte — the platform-level invalid-path encoding that makes
an existence check fatal. -/
def hasNullByte (p : PathValue) : Bool :=
  p.segments.any (fun s => s.toList.contains (Char.ofNat 0))

/-- Modelled from the spec: `exists()` — performs one metadata lookup
(the filesystem is passed explicitly as a map from paths to lookup
outcomes); true iff the path resolves to an existing entry, false on any
lookup failure including a missing path and permission denial; raises
(returns an error) only for a platform-level invalid-path encoding such as
an embedded null byte. -/
def «exists» (fs : PathValue → LookupResult) (p : PathValue) : Except String Bool :=
  if hasNullByte p then Except.error ("embedded null byte")
  else
    match fs p with
    | LookupResult.found => Except.ok true
    | LookupResult.missing => Except.ok false
    | LookupResult.denied => Except.ok false

/-- Modelled from the spec: the substring of a raw string after its last
path separator, or the string itself when it contains no separator (the
last group of the separator split is the whole string in that case). -/
def afterLastSep (s : String) : String :=
  match (splitOnSep s.toList).getLast? with
  | some g => String.mk g
  | none => s

end PathValue

mutual

/-- Modelled from the spec: a finite, acyclic directory tree — the
filesystem fragment `walk()` traverses.  An entry is a file or a
directory with a list of named children. -/
inductive Entry where
  | file : Entry
  | dir : EntryList → Entry

/-- Modelled from the spec: the named children of a directory. -/
inductive EntryList where
  | nil : EntryList
  | cons : String → Entry → EntryList → EntryList

end

namespace PathValue

/-- Modelled from the spec: whether an entry is a directory. -/
def isDir : Entry → Bool
  | Entry.file => false
  | Entry.dir _ => true

/-- Modelled from the spec: look a child entry up by name. -/
def lookupChild (n : String) : EntryList → Option Entry
  | EntryList.nil => none
  | EntryList.cons m e rest => if n = m then some e else lookupChild n rest

/-- Modelled from the spec: the entry reached from a starting entry by
following a list of child names, when every step exists. -/
def dirAt : Entry → List String → Option Entry
  | e, [] => some e
  | Entry.file, _ :: _ => none
  | Entry.dir cs, n :: ns =>
    match lookupChild n cs with
    | some c => dirAt c ns
    | none => none

/-- Modelled from the spec: the path of a named child of a directory
path. -/
def childPath (p : PathValue) (n : String) : PathValue :=
  ⟨p.segments ++ [n], p.isAbsolute⟩

/-- Modelled from the spec: the path reached from a root path by appending
a list of child names as literal segments. -/
def extendPath (p : PathValue) (ss : List String) : PathValue :=
  ⟨p.segments ++ ss, p.isAbsolute⟩

mutual

/-- Modelled from the spec: the top-down depth-first traversal underlying
`walk()` — one PathValue per visited directory, a directory before any of
its descendants; a file contributes nothing. -/
def walkEntry : PathValue → Entry → List PathValue
  | _, Entry.file => []
  | p, Entry.dir cs => p :: walkList p cs

/-- Modelled from the spec: traversal of a directory's children in
order. -/
def walkList : PathValue → EntryList → List PathValue
  | _, EntryList.nil => []
  | p, EntryList.cons n c rest => walkEntry (childPath p n) c ++ walkList p rest

end

/-- Modelled from the spec: `walk()` — the entry the root path denotes is
passed explicitly (`none` when the root does not exist).  When the root
does not exist or is not a directory the traversal is empty rather than an
error; otherwise it visits every reachable directory, the root included,
top-down (the result is a `List`, hence a finite sequence). -/
def walk (root : PathValue) (e : Option Entry) : List PathValue :=
  match e with
  | none => []
  | some Entry.file => []
  | some (Entry.dir cs) => walkEntry root (Entry.dir cs)

/-- Modelled from the spec: the chain of ancestor directory paths visited
on the way from the root down to the directory named by a segment list —
the root first, then each deeper directory in order. -/
def chain (root : PathValue) : List String → List PathValue
  | [] => [root]
  | n :: ns => root :: chain (childPath root n) ns

end PathValue

/-- Claim C3: for every PathValue with two or more segments, `parent` drops
the last segment; for every PathValue with zero or one segment, `parent` is
the path itself (terminal fixed point), and hence applying `parent` twice
equals applying it once for such paths. -/
theorem parent_spec : ∀ p : PathValue,
    (2 ≤ p.segments.length → PathValue.parent p = ⟨p.segments.dropLast, p.isAbsolute⟩) ∧
    (p.segments.length ≤ 1 →
      PathValue.parent p = p ∧
      PathValue.parent (PathValue.parent p) = PathValue.parent p) := by
  intro p
  constructor
  · intro h
    have hn : ¬ p.segments.length ≤ 1 := by omega
    simp [PathValue.parent, hn]
  · intro h
    have h1 : PathValue.parent p = p := by simp [PathValue.parent, h]
    refine ⟨h1, ?_⟩
    rw [h1]
    exact h1

/-- Witness for `parent_spec`: the single-segment path `testdirectory` is a
fixed point of `parent`. -/
theorem parent_spec_witness :
    PathValue.parent (PathValue.parse ("testdirectory")) = PathValue.parse ("testdirectory") ∧
    PathValue.parent (PathValue.parent (PathValue.parse ("testdirectory"))) =
      PathValue.parent (PathValue.parse ("testdirectory")) :=
  (parent_spec (PathValue.parse ("testdirectory"))).2 (by decide)

/-- Claim C4: joining PathValue `A` with a path-like value `B` yields `B`
when `B` is absolute; otherwise the result's segments are `A`'s segments
followed by `B`'s segments with `A`'s absoluteness; a string argument is
parsed first; and `parse("testdirectory").join("new_file.txt")` has string
form `testdirectory/new_file.txt`. -/
theorem join_spec :
    (∀ a b : PathValue,
      (b.isAbsolute = true → PathValue.join a b = b) ∧
      (b.isAbsolute = false →
        (PathValue.join a b).segments = a.segments ++ b.segments ∧
        (PathValue.join a b).isAbsolute = a.isAbsolute)) ∧
    (∀ (a : PathValue) (s : String), PathValue.joinS a s = PathValue.join a (PathValue.parse s)) ∧
    PathValue.toString (PathValue.joinS (PathValue.parse ("testdirectory")) ("new_file.txt")) =
      ("testdirectory/new_file.txt") := by
  refine ⟨?_, fun a s => rfl, by decide⟩
  intro a b
  constructor
  · intro h
    simp [PathValue.join, h]
  · intro h
    simp [PathValue.join, h]

/-- Witness for `join_spec`: joining two concrete relative paths
concatenates their segments. -/
theorem join_spec_witness :
    (PathValue.join (PathValue.parse ("testdirectory")) (PathValue.parse ("new_file.txt"))).segments =
      (PathValue.parse ("testdirectory")).segments ++ (PathValue.parse ("new_file.txt")).segments :=
  ((join_spec.1 _ _).2 (by decide)).1

/-- Claim C7: `join` is associative whenever neither the second nor the
third operand is absolute (the first may be). -/
theorem join_assoc : ∀ a b c : PathValue, b.isAbsolute = false → c.isAbsolute = false →
    PathValue.join (PathValue.join a b) c = PathValue.join a (PathValue.join b c) := by
  intro a b c hb hc
  simp [PathValue.join, hb, hc]

/-- Witness for `join_assoc`: associativity at three concrete relative
paths. -/
theorem join_assoc_witness :
    PathValue.join (PathValue.join (PathValue.parse ("a")) (PathValue.parse ("b"))) (PathValue.parse ("c")) =
      PathValue.join (PathValue.parse ("a")) (PathValue.join (PathValue.parse ("b")) (PathValue.parse ("c"))) :=
  join_assoc _ _ _ (by decide) (by decide)

/-- Claim C8: `absolute` returns an already-absolute path unchanged and
otherwise prepends the working directory's segments (a pure string-level
operation — the segments are exactly the concatenation, so no `.` or `..`
collapsing happens), and with the working directory fixed it is
idempotent. -/
theorem absolute_spec : ∀ cwd p : PathValue,
    (p.isAbsolute = true → PathValue.absolute cwd p = p) ∧
    (p.isAbsolute = false →
      (PathValue.absolute cwd p).segments = cwd.segments ++ p.segments ∧
      (PathValue.absolute cwd p).isAbsolute = true) ∧
    PathValue.absolute cwd (PathValue.absolute cwd p) = PathValue.absolute cwd p := by
  intro cwd p
  refine ⟨fun h => by simp [PathValue.absolute, h], fun h => by simp [PathValue.absolute, h], ?_⟩
  cases hb : p.isAbsolute <;> simp [PathValue.absolute, hb]

/-- Witness for `absolute_spec`: making a concrete relative path absolute
prepends the working directory's segments. -/
theorem absolute_spec_witness :
    (PathValue.absolute (PathValue.parse ("/w")) (PathValue.parse ("testdirectory"))).segments =
      (PathValue.parse ("/w")).segments ++ (PathValue.parse ("testdirectory")).segments :=
  ((absolute_spec _ _).2.1 (by decide)).1

/-- Claim C10: the `/` operator form and the `joinpath` method form of
path joining construct equal PathValues, for a PathValue right operand and
for a string right operand alike. -/
theorem truediv_eq_joinpath : ∀ (a b : PathValue) (s : String),
    PathValue.truediv a b = PathValue.joinpath a b ∧
    PathValue.truedivS a s = PathValue.joinpathS a s :=
  fun _ _ _ => ⟨rfl, rfl⟩

/-- Claim C6: `exists` answers true exactly for paths the filesystem maps
to an existing entry, answers false (rather than raising) for a missing
path and for permission denial, and raises only for the platform-level
invalid-path encoding of an embedded null byte. -/
theorem exists_spec : ∀ (fs : PathValue → PathValue.LookupResult) (p : PathValue),
    (PathValue.hasNullByte p = false →
      PathValue.«exists» fs p = Except.ok (decide (fs p = PathValue.LookupResult.found))) ∧
    (PathValue.hasNullByte p = false → fs p ≠ PathValue.LookupResult.found →
      PathValue.«exists» fs p = Except.ok false) ∧
    (PathValue.hasNullByte p = true →
      PathValue.«exists» fs p = Except.error ("embedded null byte")) := by
  intro fs p
  refine ⟨fun h => ?_, fun h hn => ?_, fun h => by simp [PathValue.«exists», h]⟩
  · cases hr : fs p <;> simp [PathValue.«exists», h, hr]
  · cases hr : fs p
    · exact absurd hr hn
    · simp [PathValue.«exists», h, hr]
    · simp [PathValue.«exists», h, hr]

/-- Witness for `exists_spec`: on a filesystem where every lookup reports
a missing entry, checking a concrete null-free path answers false. -/
theorem exists_spec_witness :
    PathValue.«exists» (fun _ => PathValue.LookupResult.missing) (PathValue.parse ("file1.txt")) =
      Except.ok false :=
  (exists_spec _ _).2.1 (by decide) (by decide)

theorem sufChars_eq_none (cs : List Char) (h : ∀ j, cs.getD j ' ' ≠ '.') :
    PathValue.sufChars cs = none := by
  induction cs with
  | nil => rfl
  | cons c cs ih =>
    have h0 : c ≠ '.' := by simpa using h 0
    have ht : ∀ j, cs.getD j ' ' ≠ '.' := fun j => by simpa using h (j + 1)
    simp [PathValue.sufChars, ih ht, h0]

theorem sufChars_eq_some (cs : List Char) : ∀ i : Nat, cs.getD i ' ' = '.' →
    (∀ j, i < j → cs.getD j ' ' ≠ '.') → PathValue.sufChars cs = some (cs.drop i) := by
  induction cs with
  | nil => intro i hdot _; simp [List.getD] at hdot
  | cons c cs ih =>
    intro i hdot hlast
    cases i with
    | zero =>
      have hc : c = '.' := by simpa using hdot
      have hnone : PathValue.sufChars cs = none := by
        apply sufChars_eq_none
        intro j
        simpa using hlast (j + 1) (by omega)
      simp [PathValue.sufChars, hnone, hc]
    | succ i =>
      have hdot' : cs.getD i ' ' = '.' := by simpa using hdot
      have hlast' : ∀ j, i < j → cs.getD j ' ' ≠ '.' := fun j hj => by
        simpa using hlast (j + 1) (by omega)
      simp [PathValue.sufChars, ih i hdot' hlast']

/-- Claim C2: `suffix` is the substring of `name` from the last `.` onward
whenever some `.` occurs after the first character of the name (the name
is then never entirely that dot-suffix); in every other case — no dot, a
dot only in leading position, or a name of zero segments — it is empty; in
particular `parse("testdirectory")` has suffix `""` and
`parse("file1.txt")` has suffix `".txt"`. -/
theorem suffix_spec :
    (∀ (p : PathValue) (i : Nat), 0 < i → (PathValue.name p).toList.getD i ' ' = '.' →
      (∀ j, j < (PathValue.name p).toList.length → i < j →
        (PathValue.name p).toList.getD j ' ' ≠ '.') →
      PathValue.suffix p = String.mk ((PathValue.name p).toList.drop i) ∧
        PathValue.suffix p ≠ PathValue.name p) ∧
    (∀ p : PathValue,
      (∀ j, j < (PathValue.name p).toList.length → 0 < j →
        (PathValue.name p).toList.getD j ' ' ≠ '.') →
      PathValue.suffix p = ("")) ∧
    PathValue.suffix (PathValue.parse ("testdirectory")) = ("") ∧
    PathValue.suffix (PathValue.parse ("file1.txt")) = (".txt") := by
  refine ⟨?_, ?_, by decide, by decide⟩
  · intro p i hi hdot hlastB
    have hlast : ∀ j, i < j → (PathValue.name p).toList.getD j ' ' ≠ '.' := by
      intro j hj
      by_cases hl : j < (PathValue.name p).toList.length
      · exact hlastB j hl hj
      · rw [List.getD_eq_default _ _ (by omega)]
        decide
    rcases hcs : (PathValue.name p).toList with _ | ⟨c, rest⟩
    · rw [hcs] at hdot
      simp [List.getD] at hdot
    · have hdata : (PathValue.name p).data = c :: rest := hcs
      obtain ⟨i', rfl⟩ : ∃ i', i = i' + 1 := ⟨i - 1, by omega⟩
      rw [hcs] at hdot hlast
      have hdot' : rest.getD i' ' ' = '.' := by simpa using hdot
      have hlast' : ∀ j, i' < j → rest.getD j ' ' ≠ '.' := fun j hj => by
        simpa using hlast (j + 1) (by omega)
      have hs := sufChars_eq_some rest i' hdot' hlast'
      have hlen : i' < rest.length := by
        by_contra hge
        rw [List.getD_eq_default _ _ (by omega)] at hdot'
        simp at hdot'
      have hsuf : PathValue.suffix p = String.mk (List.drop i' rest) := by
        simp [PathValue.suffix, PathValue.suffixCore, String.toList, hdata, hs]
      constructor
      · rw [hsuf]
        simp
      · rw [hsuf]
        intro heq
        have h2 : (List.drop i' rest).length = (PathValue.name p).data.length :=
          congrArg (fun s => s.data.length) heq
        rw [hdata] at h2
        simp at h2
        omega
  · intro p hB
    have h : ∀ j, 0 < j → (PathValue.name p).toList.getD j ' ' ≠ '.' := by
      intro j hj
      by_cases hl : j < (PathValue.name p).toList.length
      · exact hB j hl hj
      · rw [List.getD_eq_default _ _ (by omega)]
        decide
    rcases hcs : (PathValue.name p).toList with _ | ⟨c, rest⟩
    · have hdata : (PathValue.name p).data = [] := hcs
      simp [PathValue.suffix, PathValue.suffixCore, String.toList, hdata]
    · have hdata : (PathValue.name p).data = c :: rest := hcs
      have hnone : PathValue.sufChars rest = none := by
        apply sufChars_eq_none
        intro j
        have := h (j + 1) (by omega)
        rw [hcs] at this
        simpa using this
      simp [PathValue.suffix, PathValue.suffixCore, String.toList, hdata, hnone]

/-- Witness for `suffix_spec`: in `file1.txt` the last dot sits at index 5
of the name, so the suffix is the substring from index 5, namely
`".txt"`. -/
theorem suffix_spec_witness :
    PathValue.suffix (PathValue.parse ("file1.txt")) =
      String.mk ((PathValue.name (PathValue.parse ("file1.txt"))).toList.drop 5) ∧
    PathValue.suffix (PathValue.parse ("file1.txt")) ≠
      PathValue.name (PathValue.parse ("file1.txt")) :=
  suffix_spec.1 (PathValue.parse ("file1.txt")) 5 (by decide) (by decide) (by decide)

theorem splitOnSep_cons (c : Char) (rest : List Char) :
    PathValue.splitOnSep (c :: rest) =
      if c = '/' then [] :: PathValue.splitOnSep rest
      else PathValue.consHead c (PathValue.splitOnSep rest) := rfl

theorem splitOnSep_ne_nil (cs : List Char) : PathValue.splitOnSep cs ≠ [] := by
  cases cs with
  | nil => simp [PathValue.splitOnSep]
  | cons c rest =>
    rw [splitOnSep_cons]
    rcases h : PathValue.splitOnSep rest with _ | ⟨g, gs⟩
    · by_cases hc : c = '/' <;> simp [PathValue.consHead, hc]
    · by_cases hc : c = '/' <;> simp [PathValue.consHead, hc]

theorem getLast_splitOnSep (cs : List Char) (hne : cs ≠ []) (hlast : cs.getLast? ≠ some '/') :
    ∃ g, (PathValue.splitOnSep cs).getLast? = some g ∧ g ≠ [] := by
  induction cs with
  | nil => exact absurd rfl hne
  | cons c rest ih =>
    by_cases hrest : rest = []
    · subst hrest
      have hc : c ≠ '/' := by
        intro h
        exact hlast (by simp [h])
      refine ⟨[c], ?_, by simp⟩
      rw [splitOnSep_cons]
      simp [PathValue.splitOnSep, PathValue.consHead, hc]
    · obtain ⟨d, rest', rfl⟩ := List.exists_cons_of_ne_nil hrest
      rw [List.getLast?_cons_cons] at hlast
      obtain ⟨g, hg, hgne⟩ := ih hrest hlast
      rcases hs : PathValue.splitOnSep (d :: rest') with _ | ⟨g', gs'⟩
      · exact absurd hs (splitOnSep_ne_nil _)
      · rw [hs] at hg
        rw [splitOnSep_cons, hs]
        by_cases hc : c = '/'
        · refine ⟨g, ?_, hgne⟩
          rw [if_pos hc, List.getLast?_cons_cons]
          exact hg
        · rw [if_neg hc]
          rcases gs' with _ | ⟨g'', gs''⟩
          · refine ⟨c :: g', ?_, by simp⟩
            simp [PathValue.consHead]
          · refine ⟨g, ?_, hgne⟩
            rw [List.getLast?_cons_cons] at hg
            simp only [PathValue.consHead]
            rw [List.getLast?_cons_cons]
            exact hg

theorem getLast_filter_ne_nil (l : List (List Char)) (g : List Char) (hg : l.getLast? = some g)
    (hgne : g ≠ []) : (l.filter (· ≠ [])).getLast? = some g := by
  induction l with
  | nil => simp at hg
  | cons x l ih =>
    by_cases hl : l = []
    · subst hl
      simp at hg
      subst hg
      simp [List.filter_cons, hgne]
    · obtain ⟨y, l', rfl⟩ := List.exists_cons_of_ne_nil hl
      rw [List.getLast?_cons_cons] at hg
      have htail := ih hg
      have hne : (y :: l').filter (· ≠ []) ≠ [] := by
        intro hnil
        rw [hnil] at htail
        simp at htail
      obtain ⟨z, zs, hz⟩ := List.exists_cons_of_ne_nil hne
      by_cases hx : x = []
      · have hfe : (x :: y :: l').filter (· ≠ []) = (y :: l').filter (· ≠ []) := by
          subst hx
          rw [List.filter_cons]
          simp
        rw [hfe]
        exact htail
      · have hfe : (x :: y :: l').filter (· ≠ []) = x :: (y :: l').filter (· ≠ []) := by
          rw [List.filter_cons]
          simp [hx]
        rw [hfe, hz, List.getLast?_cons_cons]
        rw [hz] at htail
        exact htail

/-- Counterexample for claim C5: for the raw string `a/`, the substring
after the last separator is empty, yet `parse("a/").name()` is `a` — the
trailing separator collapses, so the universally quantified reading of the
claim fails. -/
theorem name_counterexample :
    PathValue.name (PathValue.parse ("a/")) = ("a") ∧
    PathValue.afterLastSep ("a/") = ("") ∧
    PathValue.name (PathValue.parse ("a/")) ≠ PathValue.afterLastSep ("a/") := by
  decide

/-- Claim C5 (amended): for every string `s` that does not end with the
separator, `parse(s).name()` equals the substring of `s` after the last
separator (or `s` itself when it has none); and for every PathValue,
`name` is the last segment, or the empty string when the path has zero
segments. -/
theorem name_amended :
    (∀ s : String, s.toList.getLast? ≠ some '/' →
      PathValue.name (PathValue.parse s) = PathValue.afterLastSep s) ∧
    (∀ p : PathValue,
      (p.segments = [] → PathValue.name p = ("")) ∧
      (∀ g, p.segments.getLast? = some g → PathValue.name p = g)) := by
  constructor
  · intro s hs
    by_cases hnil : s.toList = []
    · rw [PathValue.name, PathValue.parse, PathValue.afterLastSep]
      rw [hnil]
      simp [PathValue.splitOnSep]
    · obtain ⟨g, hg, hgne⟩ := getLast_splitOnSep s.toList hnil hs
      have h1 := getLast_filter_ne_nil _ g hg hgne
      rw [PathValue.name, PathValue.parse, PathValue.afterLastSep]
      rw [List.getLast?_map, h1, hg]
      simp
  · intro p
    constructor
    · intro h
      simp [PathValue.name, h]
    · intro g h
      simp [PathValue.name, h]

/-- Witness for `name_amended`: `file1.txt` has no separator and does not
end with one, and its parsed name is the whole string. -/
theorem name_amended_witness :
    PathValue.name (PathValue.parse ("file1.txt")) = PathValue.afterLastSep ("file1.txt") :=
  name_amended.1 ("file1.txt") (by decide)

theorem collapseAux_clean : ∀ (l acc : List String), (∀ s ∈ l, s ≠ "." ∧ s ≠ "..") →
    PathValue.collapseAux acc l = acc.reverse ++ l := by
  intro l
  induction l with
  | nil =>
    intro acc _
    simp [PathValue.collapseAux]
  | cons s rest ih =>
    intro acc h
    have hs := h s (by simp)
    have hrest : ∀ x ∈ rest, x ≠ "." ∧ x ≠ ".." := fun x hx => h x (by simp [hx])
    simp [PathValue.collapseAux, hs.1, hs.2, ih (s :: acc) hrest]

theorem collapse_clean (l : List String) (h : ∀ s ∈ l, s ≠ "." ∧ s ≠ "..") :
    PathValue.collapse l = l := by
  rw [PathValue.collapse, collapseAux_clean l [] h]
  simp

/-- Claim C1: `resolve` gives no special treatment to a leading `~`
segment — for a relative path whose first segment is `~` it returns the
working directory with `~` and the remaining segments appended as literal
segments (shown here for working directories and paths free of `.` and
`..` segments, which `resolve` collapses), so the result differs from
expanding the user home first and then resolving, whenever the home
directory and the remaining segments do not themselves contain a `~`
segment; and `parse("~/.config")` is exactly the relative path with
segments `~` and `.config`. -/
theorem resolve_tilde : ∀ (cwd home : PathValue) (rest : List String),
    (∀ s ∈ cwd.segments ++ ("~") :: rest, s ≠ "." ∧ s ≠ "..") →
    PathValue.resolve cwd ⟨("~") :: rest, false⟩ = ⟨cwd.segments ++ ("~") :: rest, true⟩ ∧
    (home.isAbsolute = true → (∀ s ∈ home.segments ++ rest, s ≠ "." ∧ s ≠ "..") →
      ("~") ∉ home.segments → ("~") ∉ rest →
      PathValue.resolve cwd (PathValue.expandUser home ⟨("~") :: rest, false⟩) ≠
        PathValue.resolve cwd ⟨("~") :: rest, false⟩) ∧
    PathValue.parse ("~/.config") = ⟨[("~"), (".config")], false⟩ := by
  intro cwd home rest hclean
  have h1 : PathValue.resolve cwd ⟨("~") :: rest, false⟩ =
      ⟨cwd.segments ++ ("~") :: rest, true⟩ := by
    have habs : (PathValue.absolute cwd ⟨("~") :: rest, false⟩).segments =
        cwd.segments ++ ("~") :: rest := by
      simp [PathValue.absolute]
    rw [PathValue.resolve, habs, collapse_clean _ hclean]
  refine ⟨h1, ?_, by decide⟩
  intro habs hclean2 hnh hnr
  have hexp : PathValue.expandUser home ⟨("~") :: rest, false⟩ =
      ⟨home.segments ++ rest, home.isAbsolute⟩ := by
    simp [PathValue.expandUser]
  have h2 : PathValue.resolve cwd (PathValue.expandUser home ⟨("~") :: rest, false⟩) =
      ⟨home.segments ++ rest, true⟩ := by
    rw [hexp, habs]
    have habs2 : PathValue.absolute cwd ⟨home.segments ++ rest, true⟩ =
        ⟨home.segments ++ rest, true⟩ := by
      simp [PathValue.absolute]
    rw [PathValue.resolve, habs2, collapse_clean _ hclean2]
  rw [h1, h2]
  intro heq
  have hseg : home.segments ++ rest = cwd.segments ++ ("~") :: rest :=
    congrArg PathValue.segments heq
  have hmem : ("~" : String) ∈ home.segments ++ rest := by
    rw [hseg]
    simp
  rcases List.mem_append.1 hmem with h | h
  · exact hnh h
  · exact hnr h

/-- Witness for `resolve_tilde`: with working directory
`/workspaces/python` and home `/home/vscode`, resolving the parsed
`~/.config` appends `~` and `.config` literally to the working directory
and differs from expand-then-resolve. -/
theorem resolve_tilde_witness :
    PathValue.resolve (PathValue.parse ("/workspaces/python")) ⟨("~") :: [(".config")], false⟩ =
      ⟨(PathValue.parse ("/workspaces/python")).segments ++ ("~") :: [(".config")], true⟩ ∧
    PathValue.resolve (PathValue.parse ("/workspaces/python"))
        (PathValue.expandUser (PathValue.parse ("/home/vscode")) ⟨("~") :: [(".config")], false⟩) ≠
      PathValue.resolve (PathValue.parse ("/workspaces/python")) ⟨("~") :: [(".config")], false⟩ :=
  ⟨(resolve_tilde (PathValue.parse ("/workspaces/python")) (PathValue.parse ("/home/vscode"))
      [(".config")] (by decide)).1,
   (resolve_tilde (PathValue.parse ("/workspaces/python")) (PathValue.parse ("/home/vscode"))
      [(".config")] (by decide)).2.1 (by decide) (by decide) (by decide) (by decide)⟩

theorem chain_sublist_walkList (ns : List String)
    (H : ∀ (t : Entry) (q : PathValue) (c : Entry), PathValue.dirAt t ns = some c →
      PathValue.isDir c = true → List.Sublist (PathValue.chain q ns) (PathValue.walkEntry q t)) :
    ∀ (cs : EntryList) (root : PathValue) (n : String) (c' c : Entry),
      PathValue.lookupChild n cs = some c' → PathValue.dirAt c' ns = some c →
      PathValue.isDir c = true →
      List.Sublist (PathValue.chain (PathValue.childPath root n) ns)
        (PathValue.walkList root cs)
  | EntryList.nil, root, n, c', c, hlk, _, _ => by
    simp [PathValue.lookupChild] at hlk
  | EntryList.cons m e rest, root, n, c', c, hlk, hdir, hc => by
    by_cases hm : n = m
    · subst hm
      have he : e = c' := by simpa [PathValue.lookupChild] using hlk
      subst he
      have hsub := H e (PathValue.childPath root n) c hdir hc
      rw [PathValue.walkList]
      exact hsub.trans (List.sublist_append_left _ _)
    · have hlk' : PathValue.lookupChild n rest = some c' := by
        simpa [PathValue.lookupChild, hm] using hlk
      have hsub := chain_sublist_walkList ns H rest root n c' c hlk' hdir hc
      rw [PathValue.walkList]
      exact hsub.trans (List.sublist_append_right _ _)

theorem chain_sublist_walkEntry : ∀ (ss : List String) (t : Entry) (q : PathValue) (c : Entry),
    PathValue.dirAt t ss = some c → PathValue.isDir c = true →
    List.Sublist (PathValue.chain q ss) (PathValue.walkEntry q t) := by
  intro ss
  induction ss with
  | nil =>
    intro t q c hdir hc
    have ht : t = c := by simpa [PathValue.dirAt] using hdir
    subst ht
    cases t with
    | file => simp [PathValue.isDir] at hc
    | dir cs =>
      rw [PathValue.chain, PathValue.walkEntry]
      exact List.Sublist.cons₂ q (List.nil_sublist _)
  | cons n ns ih =>
    intro t q c hdir hc
    cases t with
    | file => simp [PathValue.dirAt] at hdir
    | dir cs =>
      rcases hlk : PathValue.lookupChild n cs with _ | c'
      · rw [PathValue.dirAt, hlk] at hdir
        simp at hdir
      · rw [PathValue.dirAt, hlk] at hdir
        have hsub := chain_sublist_walkList ns ih cs q n c' c hlk hdir hc
        rw [PathValue.chain, PathValue.walkEntry]
        exact List.Sublist.cons₂ q hsub

theorem extendPath_mem_chain : ∀ (ss : List String) (q : PathValue),
    PathValue.extendPath q ss ∈ PathValue.chain q ss := by
  intro ss
  induction ss with
  | nil =>
    intro q
    simp [PathValue.extendPath, PathValue.chain]
  | cons n ns ih =>
    intro q
    rw [PathValue.chain]
    have hext : PathValue.extendPath q (n :: ns) =
        PathValue.extendPath (PathValue.childPath q n) ns := by
      simp [PathValue.extendPath, PathValue.childPath]
    rw [hext]
    exact List.mem_cons_of_mem _ (ih _)

/-- Claim C9: `walk` on a root whose entry is missing or is a file (not a
directory) is the empty sequence rather than an error; on a finite acyclic
directory tree it is a finite sequence (a `List`) that contains every
reachable directory, the root included, top-down: the whole ancestor chain
of each reachable directory — the root first — occurs in traversal order
as a sublist of the walk. -/
theorem walk_spec :
    (∀ root : PathValue,
      PathValue.walk root none = [] ∧ PathValue.walk root (some Entry.file) = []) ∧
    (∀ (root : PathValue) (t : Entry) (ss : List String) (c : Entry),
      PathValue.dirAt t ss = some c → PathValue.isDir c = true →
      List.Sublist (PathValue.chain root ss) (PathValue.walk root (some t)) ∧
      PathValue.extendPath root ss ∈ PathValue.walk root (some t)) := by
  refine ⟨fun root => ⟨rfl, rfl⟩, ?_⟩
  intro root t ss c hdir hc
  have hw : PathValue.walk root (some t) = PathValue.walkEntry root t := by
    cases t <;> rfl
  rw [hw]
  have hsub := chain_sublist_walkEntry ss t root c hdir hc
  exact ⟨hsub, hsub.subset (extendPath_mem_chain ss root)⟩

/-- Witness for `walk_spec`: in the concrete tree with a subdirectory
`sub` and a file `f` under the root `testdirectory`, the directory `sub`
is reachable and the walk contains the root-then-`sub` chain in order. -/
theorem walk_spec_witness :
    List.Sublist
      (PathValue.chain (PathValue.parse ("testdirectory")) [("sub")])
      (PathValue.walk (PathValue.parse ("testdirectory"))
        (some (Entry.dir (EntryList.cons ("sub") (Entry.dir EntryList.nil)
          (EntryList.cons ("f") Entry.file EntryList.nil))))) ∧
    PathValue.extendPath (PathValue.parse ("testdirectory")) [("sub")] ∈
      PathValue.walk (PathValue.parse ("testdirectory"))
        (some (Entry.dir (EntryList.cons ("sub") (Entry.dir EntryList.nil)
          (EntryList.cons ("f") Entry.file EntryList.nil)))) :=
  walk_spec.2 (PathValue.parse ("testdirectory"))
    (Entry.dir (EntryList.cons ("sub") (Entry.dir EntryList.nil)
      (EntryList.cons ("f") Entry.file EntryList.nil)))
    [("sub")] (Entry.dir EntryList.nil)
    (by simp [PathValue.dirAt, PathValue.lookupChild]) (by simp [PathValue.isDir])
